import Mathlib

/-!
Verification of the core logic of the CursorTranslation repository
(`scripts/apply.js`, `scripts/translation-merger.js`, and the translation
validator): the quote-delimited literal substitution engine, dictionary
flattening, deep merge with statistics, the backup/patch cycle, and the
dictionary validator.  Texts are modelled as `List Char`; JSON values as an
inductive `JVal` whose objects are insertion-ordered association lists,
matching JavaScript object semantics (unique keys, insertion order,
in-place update on reassignment).
-/

/-- Shorthand: the character list of a string literal. -/
def strL (s : String) : List Char := s.data

/-- The double-quote character. -/
def dquo : Char := Char.ofNat 34

/-- The single-quote character. -/
def squo : Char := Char.ofNat 39

/-- The backslash character. -/
def bsl : Char := Char.ofNat 92

/-- The dollar character. -/
def dollar : Char := Char.ofNat 36

/-- The backtick character. -/
def btick : Char := Char.ofNat 96

/-- `leadsWith p s` : `p` is an initial segment of `s`. -/
def leadsWith : List Char → List Char → Bool
  | [], _ => true
  | _ :: _, [] => false
  | c :: p, d :: s => c = d && leadsWith p s

/-- `hasSub p s` : `p` occurs as a contiguous subsequence of `s`
(models JavaScript `String.prototype.includes`). -/
def hasSub (p : List Char) : List Char → Bool
  | [] => leadsWith p []
  | c :: s => leadsWith p (c :: s) || hasSub p s

mutual
/-- JSON values, with objects as insertion-ordered field lists (JavaScript
object semantics: unique keys, insertion order, in-place update on
reassignment).  `JArr` and `JObj` are inlined list types so that all
recursions over values stay structural. -/
inductive JVal where
  | str (s : List Char)
  | num (n : Int)
  | bool (b : Bool)
  | null
  | arr (xs : JArr)
  | obj (fields : JObj)
/-- A JSON array, as an inlined list of values. -/
inductive JArr where
  | nil
  | cons (hd : JVal) (tl : JArr)
/-- A JSON object, as an inlined insertion-ordered field list. -/
inductive JObj where
  | nil
  | cons (k : List Char) (v : JVal) (tl : JObj)
end

/-- Build an object from a Lean list of fields. -/
def JObj.ofList : List (List Char × JVal) → JObj
  | [] => .nil
  | (k, v) :: rest => .cons k v (JObj.ofList rest)

/-- Build an array from a Lean list of elements. -/
def JArr.ofList : List JVal → JArr
  | [] => .nil
  | v :: rest => .cons v (JArr.ofList rest)

/-- The keys of an object, in order. -/
def JObj.keys : JObj → List (List Char)
  | .nil => []
  | .cons k _ rest => k :: JObj.keys rest

/-- The number of fields of an object (`Object.keys(o).length`). -/
def JObj.size : JObj → Nat
  | .nil => 0
  | .cons _ _ rest => JObj.size rest + 1

/-- First-occurrence lookup in an object (JavaScript property read). -/
def objGet : JObj → List Char → Option JVal
  | .nil, _ => none
  | .cons k' v rest, k => if k' = k then some v else objGet rest k

/-- JavaScript property write `o[k] = v`: updates the first occurrence of `k`
in place (keeping its position), or appends `(k, v)` if `k` is absent. -/
def objSet : JObj → List Char → JVal → JObj
  | .nil, k, v => .cons k v .nil
  | .cons k' v' rest, k, v =>
    if k' = k then .cons k v rest else .cons k' v' (objSet rest k v)

/-- `Object.assign(target, source)`: write every field of `source` into
`target`, in order. -/
def objAssign : JObj → JObj → JObj
  | target, .nil => target
  | target, .cons k v rest => objAssign (objSet target k v) rest

/-- Index-keyed fields `("0", x0), ("1", x1), …` of an array. -/
def entriesOfIdx (i : Nat) : JArr → JObj
  | .nil => .nil
  | .cons x xs => .cons (Nat.repr i).data x (entriesOfIdx (i + 1) xs)

/-- Index-keyed one-character-string fields of a string. -/
def strEntriesOfIdx (i : Nat) : List Char → JObj
  | [] => .nil
  | c :: cs => .cons (Nat.repr i).data (.str [c]) (strEntriesOfIdx (i + 1) cs)

/-- `Object.entries(v)` (equally the own enumerable properties spread by
`{...v}`): fields of an object, index entries of an array, index entries of
one-character strings for a string, and nothing for other primitives. -/
def jsEntries : JVal → JObj
  | .obj fields => fields
  | .arr xs => entriesOfIdx 0 xs
  | .str s => strEntriesOfIdx 0 s
  | _ => .nil

/-- JavaScript truthiness of a value. -/
def isTruthy : JVal → Bool
  | .str s => !s.isEmpty
  | .num n => n ≠ 0
  | .bool b => b
  | .null => false
  | .arr _ => true
  | .obj _ => true

/-- `typeof v === 'object' && v !== null` (objects and arrays). -/
def isObjNotNull : JVal → Bool
  | .obj _ => true
  | .arr _ => true
  | _ => false

/-- The test used by `deepMerge`:
`value && typeof value === 'object' && !Array.isArray(value)`. -/
def isMergeableObj : JVal → Bool
  | .obj _ => true
  | _ => false

/-- The opening-brace character. -/
def lbraceC : Char := Char.ofNat 123

/-- The closing-brace character. -/
def rbraceC : Char := Char.ofNat 125

/-- A quote delimiter accepted by the substitution pattern `(["'])…\1`. -/
def isQuoteC (c : Char) : Bool := c = dquo || c = squo

/-- The characters escaped by `TranslationProcessor.escapeRegExp`
(`/[.*+?^${}()|[\]\\]/g`). -/
def isRegexMeta (c : Char) : Bool :=
  c = '.' || c = '*' || c = '+' || c = '?' || c = '^' || c = dollar ||
  c = lbraceC || c = rbraceC || c = '(' || c = ')' || c = '|' ||
  c = '[' || c = ']' || c = bsl

/-- `TranslationProcessor.escapeRegExp`: prepend a backslash to every regex
metacharacter (apply.js line 405). -/
def escapeRegExp (s : List Char) : List Char :=
  s.flatMap (fun c => if isRegexMeta c then [bsl, c] else [c])

/-- Interpreter for the escaped-literal fragment of regex patterns produced by
`escapeRegExp`: a backslash-escaped character matches that character literally;
any other pattern character matches itself.  Returns the unconsumed input. -/
def litMatch : List Char → List Char → Option (List Char)
  | [], s => some s
  | c :: p, s =>
    if c = bsl then
      match p with
      | [] => none
      | d :: p' =>
        match s with
        | [] => none
        | e :: s' => if e = d then litMatch p' s' else none
    else
      match s with
      | [] => none
      | e :: s' => if e = c then litMatch p s' else none

/-- One attempt of the pattern `(["'])original\1` at the start of `rest`:
a quote character, the escaped original matched literally, then the same
quote character again. -/
def tryMatch (orig : List Char) : List Char → Option (Char × List Char)
  | [] => none
  | q :: t =>
    if isQuoteC q then
      match litMatch (escapeRegExp orig) t with
      | some r =>
        match r with
        | q' :: r' => if q' = q then some (q, r') else none
        | [] => none
      | none => none
    else none

/-- A pattern produced by `escapeRegExp` matches exactly the original text,
literally. -/
theorem litMatch_escape_iff (orig : List Char) :
    ∀ s r, litMatch (escapeRegExp orig) s = some r ↔ s = orig ++ r := by
  induction orig with
  | nil => intro s r; simp [escapeRegExp, litMatch]
  | cons c cs ih =>
    intro s r
    by_cases hm : isRegexMeta c = true
    · have hpat : escapeRegExp (c :: cs) = bsl :: c :: escapeRegExp cs := by
        simp [escapeRegExp, List.flatMap_cons, hm]
      rw [hpat]
      cases s with
      | nil => rw [litMatch.eq_def]; simp
      | cons e s' =>
        rw [litMatch.eq_def]
        by_cases he : e = c
        · subst he; simp [ih s' r]
        · simp [he]
    · have hbsl : c ≠ bsl := by
        intro h; subst h; simp [isRegexMeta] at hm
      have hpat : escapeRegExp (c :: cs) = c :: escapeRegExp cs := by
        simp [escapeRegExp, List.flatMap_cons, hm]
      rw [hpat]
      cases s with
      | nil => rw [litMatch.eq_def]; simp [hbsl]
      | cons e s' =>
        rw [litMatch.eq_def]
        by_cases he : e = c
        · subst he; simp [hbsl, ih s' r]
        · simp [hbsl, he]

/-- Soundness direction: a successful pattern attempt decomposes the input as
quote, original, same quote, remainder. -/
theorem tryMatch_some_inv (orig rest : List Char) (q : Char) (r' : List Char)
    (h : tryMatch orig rest = some (q, r')) :
    isQuoteC q = true ∧ rest = q :: (orig ++ q :: r') := by
  cases rest with
  | nil => simp [tryMatch] at h
  | cons q0 t =>
    rw [tryMatch] at h
    by_cases hq : isQuoteC q0 = true
    · rw [if_pos hq] at h
      cases hlm : litMatch (escapeRegExp orig) t with
      | none => rw [hlm] at h; exact absurd h (by simp)
      | some r =>
        rw [hlm] at h
        dsimp only at h
        cases r with
        | nil => exact absurd h (by simp)
        | cons q1 r1 =>
          dsimp only at h
          by_cases hq1 : q1 = q0
          · rw [if_pos hq1] at h
            cases h
            subst hq1
            have ht : t = orig ++ q1 :: r' := (litMatch_escape_iff orig t _).mp hlm
            exact ⟨hq, by rw [ht]⟩
          · rw [if_neg hq1] at h; exact absurd h (by simp)
    · rw [if_neg hq] at h; exact absurd h (by simp)

/-- Completeness direction: the pattern succeeds on a quote-delimited literal
occurrence of the original. -/
theorem tryMatch_eq_some (orig r' : List Char) (q : Char) (hq : isQuoteC q = true) :
    tryMatch orig (q :: (orig ++ q :: r')) = some (q, r') := by
  have hlm : litMatch (escapeRegExp orig) (orig ++ q :: r') = some (q :: r') :=
    (litMatch_escape_iff orig _ _).mpr rfl
  rw [tryMatch, if_pos hq, hlm]
  simp

/-- Characterisation of one pattern attempt of `(["'])orig\1`: it matches at
the start of `rest` iff `rest` begins with a quote character, then the
original text literally, then the same quote character. -/
theorem tryMatch_iff (orig rest : List Char) (q : Char) (r' : List Char) :
    tryMatch orig rest = some (q, r') ↔
      isQuoteC q = true ∧ rest = q :: (orig ++ q :: r') := by
  constructor
  · exact tryMatch_some_inv orig rest q r'
  · rintro ⟨hq, rfl⟩
    exact tryMatch_eq_some orig r' q hq

/-- A successful match consumes the original plus the two quote characters. -/
theorem tryMatch_length (orig rest : List Char) (q : Char) (r' : List Char)
    (h : tryMatch orig rest = some (q, r')) :
    rest.length = orig.length + r'.length + 2 := by
  obtain ⟨-, rfl⟩ := tryMatch_some_inv orig rest q r' h
  simp [List.length_append, List.length_cons]
  omega

/-- Scanner state for the replacement-template scan: nothing pending, a
pending dollar, or a pending dollar-zero. -/
inductive DState where
  | plain
  | afterDollar
  | afterDollarZero

/-- JavaScript `GetSubstitution` scan for a replacement template with one
capture group (the quote character `q`): `$$` is a literal dollar, `$&` the
whole match, a dollar-backtick the part of the subject before the match, a
dollar-quote the part after, and `$1`/`$01` the capture (a two-digit
reference above the group count falls back to the one-digit reference, so
`$1` followed by more digits still reads the capture); any other dollar
sequence is literal. -/
def applySubstGo (q : Char) (pre matched post : List Char) : DState → List Char → List Char
  | .plain, [] => []
  | .afterDollar, [] => [dollar]
  | .afterDollarZero, [] => [dollar, '0']
  | .plain, c :: rest =>
    if c = dollar then applySubstGo q pre matched post .afterDollar rest
    else c :: applySubstGo q pre matched post .plain rest
  | .afterDollar, c :: rest =>
    if c = dollar then dollar :: applySubstGo q pre matched post .plain rest
    else if c = '&' then matched ++ applySubstGo q pre matched post .plain rest
    else if c = btick then pre ++ applySubstGo q pre matched post .plain rest
    else if c = squo then post ++ applySubstGo q pre matched post .plain rest
    else if c = '1' then q :: applySubstGo q pre matched post .plain rest
    else if c = '0' then applySubstGo q pre matched post .afterDollarZero rest
    else dollar :: c :: applySubstGo q pre matched post .plain rest
  | .afterDollarZero, c :: rest =>
    if c = '1' then q :: applySubstGo q pre matched post .plain rest
    else if c = dollar then dollar :: '0' :: applySubstGo q pre matched post .afterDollar rest
    else dollar :: '0' :: c :: applySubstGo q pre matched post .plain rest

/-- Instantiate a replacement template for a match: `matched` is the whole
matched text, `pre`/`post` the subject before/after the match. -/
def applySubst (q : Char) (pre matched post tmpl : List Char) : List Char :=
  applySubstGo q pre matched post .plain tmpl

/-- Global regex replacement `content.replace(/(["'])orig\1/g, tmpl)`:
scan left to right; at a match emit the instantiated template and continue
after the match; otherwise copy one character.  `pre` is the already-consumed
part of the subject (needed for the dollar-backtick form).  The `fuel`
argument only makes the recursion structural; a match consumes at least two
characters, so any `fuel` of at least `rest.length` gives the untruncated
scan (`replaceGoF_fuel`). -/
def replaceGoF (orig tmpl : List Char) : Nat → List Char → List Char → List Char
  | 0, _, _ => []
  | fuel + 1, pre, rest =>
    match tryMatch orig rest with
    | some (q, r') =>
      applySubst q pre (q :: (orig ++ [q])) r' tmpl ++
        replaceGoF orig tmpl fuel (pre ++ (q :: (orig ++ [q]))) r'
    | none =>
      match rest with
      | [] => []
      | c :: t => c :: replaceGoF orig tmpl fuel (pre ++ [c]) t

/-- The scan does not depend on the fuel once the fuel covers the remaining
input. -/
theorem replaceGoF_fuel (orig tmpl : List Char) :
    ∀ f₁ f₂ pre rest, rest.length ≤ f₁ → rest.length ≤ f₂ →
      replaceGoF orig tmpl f₁ pre rest = replaceGoF orig tmpl f₂ pre rest := by
  intro f₁
  induction f₁ using Nat.strong_induction_on with
  | _ f₁ ih =>
    intro f₂ pre rest h1 h2
    match f₁, f₂ with
    | 0, 0 => rfl
    | 0, _ + 1 =>
      have : rest = [] := List.length_eq_zero.mp (Nat.le_zero.mp h1)
      subst this
      cases hm : tryMatch orig [] with
      | some qr => simp [tryMatch] at hm
      | none => simp [replaceGoF, hm]
    | _ + 1, 0 =>
      have : rest = [] := List.length_eq_zero.mp (Nat.le_zero.mp h2)
      subst this
      cases hm : tryMatch orig [] with
      | some qr => simp [tryMatch] at hm
      | none => simp [replaceGoF, hm]
    | g₁ + 1, g₂ + 1 =>
      cases hm : tryMatch orig rest with
      | some qr =>
        obtain ⟨q, r'⟩ := qr
        have hl := tryMatch_length orig rest q r' hm
        simp only [replaceGoF, hm]
        rw [ih g₁ (by omega) g₂ (pre ++ (q :: (orig ++ [q]))) r' (by omega) (by omega)]
      | none =>
        cases rest with
        | nil => simp [replaceGoF, hm]
        | cons c t =>
          simp only [replaceGoF, hm, List.length_cons] at h1 h2 ⊢
          rw [ih g₁ (by omega) g₂ (pre ++ [c]) t (by omega) (by omega)]

/-- `content.replace(new RegExp('(["'])' + escapeRegExp(original) + '\\1', 'g'),
replacementString)` (apply.js line 441/453). -/
def replaceGlobal (orig tmpl s : List Char) : List Char :=
  replaceGoF orig tmpl s.length [] s

/-- The two translation modes of the patcher. -/
inductive Mode where
  | direct
  | bilingual

/-- `original.replace(/\$/g, '$$$$')` (apply.js line 447): double every dollar
so the original is literal inside the replacement template. -/
def escapeDollars (s : List Char) : List Char :=
  s.flatMap (fun c => if c = dollar then [dollar, dollar] else [c])

/-- The replacement template built in `applyTranslations` (apply.js lines
444-451): direct mode `$1${translated}$1`, bilingual mode
`$1${escapedOriginal}\n${translated}$1` (with a literal backslash-n). -/
def mkTemplate (mode : Mode) (original translated : List Char) : List Char :=
  match mode with
  | .direct => dollar :: '1' :: (translated ++ [dollar, '1'])
  | .bilingual =>
    dollar :: '1' :: (escapeDollars original ++ bsl :: 'n' :: (translated ++ [dollar, '1']))

/-- The result record of `TranslationProcessor.applyTranslations`. -/
structure ApplyResult where
  content : List Char
  replacementsCount : Nat
  notFound : List (List Char)
  errors : List (List Char)
deriving DecidableEq

/-- The per-entry loop of `TranslationProcessor.applyTranslations` (apply.js
lines 429-463): each pair's substitution runs inside a try block; on success a
changed text counts as a hit and an unchanged text records a miss; a thrown
error is pushed onto `errors` and the loop continues with the next pair. -/
def applyLoop (step : (List Char × List Char) → List Char → Except (List Char) (List Char)) :
    List (List Char × List Char) → List Char → Nat → List (List Char) → List (List Char) →
    ApplyResult
  | [], content, cnt, nf, errs => ⟨content, cnt, nf, errs⟩
  | p :: rest, content, cnt, nf, errs =>
    match step p content with
    | .ok c' =>
      if c' = content then applyLoop step rest content cnt (nf ++ [p.1]) errs
      else applyLoop step rest c' (cnt + 1) nf errs
    | .error e => applyLoop step rest content cnt nf (errs ++ [e])

/-- The body of the try block for one pair: build the delimiter-guarded
pattern and the mode-dependent template, and replace globally.  In the
embedded semantics this never throws. -/
def substStep (mode : Mode) (p : List Char × List Char) (content : List Char) :
    Except (List Char) (List Char) :=
  .ok (replaceGlobal p.1 (mkTemplate mode p.1 p.2) content)

/-- Stable insertion of an entry into a list sorted by descending key length:
the entry goes after every earlier entry of length at least its own. -/
def insertByLen (x : List Char × List Char) :
    List (List Char × List Char) → List (List Char × List Char)
  | [] => [x]
  | y :: ys => if x.1.length < y.1.length then y :: insertByLen x ys else x :: y :: ys

/-- `Object.entries(translations).sort((a, b) => b[0].length - a[0].length)`
(apply.js line 423): a stable sort by descending key length. -/
def jsSortEntries : List (List Char × List Char) → List (List Char × List Char)
  | [] => []
  | x :: xs => insertByLen x (jsSortEntries xs)

/-- `TranslationProcessor.applyTranslations` (apply.js lines 415-477). -/
def applyTranslations (content : List Char) (translations : List (List Char × List Char))
    (mode : Mode) : ApplyResult :=
  applyLoop (substStep mode) (jsSortEntries translations) content 0 [] []

/-- The JavaScript whitespace characters stripped by `String.prototype.trim`
(the ones expressible in the dictionary format). -/
def jsIsSpace (c : Char) : Bool :=
  c = ' ' || c = Char.ofNat 9 || c = Char.ofNat 10 || c = Char.ofNat 13 ||
  c = Char.ofNat 11 || c = Char.ofNat 12

/-- The entry filter of `flattenTranslations` (apply.js line 330):
`!value || typeof value !== 'string' || value.trim() === ''` skips the entry;
otherwise the string value is kept. -/
def keepValue : JVal → Option (List Char)
  | .str s => if s.all jsIsSpace then none else some s
  | _ => none

/-- First-occurrence lookup in a flattened string-to-string map. -/
def smapGet : List (List Char × List Char) → List Char → Option (List Char)
  | [], _ => none
  | (k', v) :: rest, k => if k' = k then some v else smapGet rest k

/-- JavaScript property write on a flattened string-to-string map: update the
first occurrence in place, else append. -/
def smapSet : List (List Char × List Char) → List Char → List Char →
    List (List Char × List Char)
  | [], k, v => [(k, v)]
  | (k', v') :: rest, k, v =>
    if k' = k then (k, v) :: rest else (k', v') :: smapSet rest k v

/-- Inner loop of `TranslationProcessor.flattenTranslations` (apply.js lines
328-338) over one group's entries: skip invalid values, otherwise store the
value under the full key `` `${groupName}.${key}` ``. -/
def flattenGroupEntries (g : List Char) :
    List (List Char × List Char) → JObj → List (List Char × List Char)
  | m, .nil => m
  | m, .cons k v rest =>
    match keepValue v with
    | some s => flattenGroupEntries g (smapSet m (g ++ '.' :: k) s) rest
    | none => flattenGroupEntries g m rest

/-- Outer loop of `TranslationProcessor.flattenTranslations` over the groups. -/
def flattenGroupsGo : List (List Char × List Char) → JObj → List (List Char × List Char)
  | m, .nil => m
  | m, .cons g group rest => flattenGroupsGo (flattenGroupEntries g m (jsEntries group)) rest

/-- `TranslationProcessor.flattenTranslations` (apply.js lines 324-342). -/
def flattenTranslations (grouped : JVal) : List (List Char × List Char) :=
  flattenGroupsGo [] (jsEntries grouped)

/-- Inner loop of the flatten contract as the specification words it
(section 4.1): identical entry filter, but the flattened key is the original
text itself, so later categories overwrite earlier ones on key collision. -/
def flattenSpecEntries :
    List (List Char × List Char) → JObj → List (List Char × List Char)
  | m, .nil => m
  | m, .cons k v rest =>
    match keepValue v with
    | some s => flattenSpecEntries (smapSet m k s) rest
    | none => flattenSpecEntries m rest

/-- Outer loop of the specification's flatten over the categories. -/
def flattenSpecGroups : List (List Char × List Char) → JObj → List (List Char × List Char)
  | m, .nil => m
  | m, .cons _ group rest => flattenSpecGroups (flattenSpecEntries m (jsEntries group)) rest

/-- `flatten(Dictionary) -> Map<string,string>` as the specification words it:
iterate categories in stored order, skip invalid entries, key the result by
the original text, later categories overwriting earlier ones. -/
def flattenSpec (grouped : JVal) : List (List Char × List Char) :=
  flattenSpecGroups [] (jsEntries grouped)

/-- `result[key] || {}` followed by the `{...target}` spread inside the
recursive call of `TranslationMerger.deepMerge`: a falsy or absent value
spreads to no fields, otherwise its own enumerable properties. -/
def mergeTargetOf : Option JVal → JObj
  | some v => if isTruthy v then jsEntries v else .nil
  | none => .nil

/-- The loop of `TranslationMerger.deepMerge` (translation-merger.js lines
112-124): for each source field, a truthy non-array object value is merged
recursively into `result[key] || {}`; any other value overwrites. -/
def deepMergeE : JObj → JObj → JObj
  | target, .nil => target
  | target, .cons k (JVal.obj fields) rest =>
    deepMergeE (objSet target k (.obj (deepMergeE (mergeTargetOf (objGet target k)) fields))) rest
  | target, .cons k v rest => deepMergeE (objSet target k v) rest

/-- `TranslationMerger.deepMerge(target, source)`: spread the target into a
fresh object and fold the source's entries over it. -/
def deepMerge (target source : JVal) : JVal :=
  .obj (deepMergeE (jsEntries target) (jsEntries source))

/-- The `{total, categories}` record of `TranslationMerger.countTranslations`. -/
structure CountStats where
  total : Nat
  categories : Nat
deriving DecidableEq

/-- The loop of `TranslationMerger.countTranslations` (translation-merger.js
lines 129-141): every field whose value satisfies
`typeof items === 'object' && items !== null` counts as a category and
contributes `Object.keys(items).length` entries. -/
def countGo : CountStats → JObj → CountStats
  | acc, .nil => acc
  | acc, .cons _ v rest =>
    if isObjNotNull v then countGo ⟨acc.total + (jsEntries v).size, acc.categories + 1⟩ rest
    else countGo acc rest

/-- `TranslationMerger.countTranslations`. -/
def countTranslations (v : JVal) : CountStats :=
  countGo ⟨0, 0⟩ (jsEntries v)

mutual
/-- Following the specification's words (section 4.3): the number of
string-valued leaves of a dictionary, counted through nested objects. -/
def specLeafCount : JVal → Nat
  | .str _ => 1
  | .obj fields => specLeafCountO fields
  | _ => 0
/-- Sum of `specLeafCount` over an object's fields. -/
def specLeafCountO : JObj → Nat
  | .nil => 0
  | .cons _ v rest => specLeafCount v + specLeafCountO rest
end

/-- Content of a file on disk, as far as the merger reads it: malformed JSON
or a parsed JSON value. -/
inductive FileData where
  | malformed
  | json (v : JVal)

/-- The three files `TranslationMerger` touches: `zh-cn.json` (primary),
`yes-zh-cn.json` (pending addition), `zh-cn.json.backup`. -/
structure MergeFS where
  zhCn : Option FileData
  yes : Option FileData
  backup : Option FileData

/-- Success of the two writes the merger may attempt (`safeWriteFile` returns
false on an I/O error). -/
structure WriteOracle where
  backupOk : Bool
  zhCnOk : Bool

/-- The `before`/`after`/`added` statistics in a successful merge result. -/
structure MergeStats where
  before : CountStats
  afterM : CountStats
  addedTranslations : Int
  addedCategories : Int
deriving DecidableEq

/-- The result object of `TranslationMerger.checkAndMerge`. -/
structure MergeOutcome where
  success : Bool
  merged : Bool
  stats : Option MergeStats
deriving DecidableEq

/-- `parseJsonFile`: `null` on a missing or malformed file, the parsed value
otherwise. -/
def parseJsonOf : Option FileData → Option JVal
  | some (.json v) => some v
  | _ => none

/-- `TranslationMerger.checkAndMerge` (translation-merger.js lines 146-222)
over the modelled file system: no-op without the addition file; abort when
either file fails to parse (or parses to a falsy value); otherwise count,
attempt the backup (a failed backup write is only logged and the merge
continues), deep-merge, and write the merged object over the primary. -/
def checkAndMerge (fs : MergeFS) (w : WriteOracle) : MergeOutcome × MergeFS :=
  match fs.yes with
  | none => (⟨true, false, none⟩, fs)
  | some _ =>
    match parseJsonOf fs.zhCn with
    | none => (⟨false, false, none⟩, fs)
    | some existing =>
      if isTruthy existing = false then (⟨false, false, none⟩, fs)
      else
        match parseJsonOf fs.yes with
        | none => (⟨false, false, none⟩, fs)
        | some addition =>
          if isTruthy addition = false then (⟨false, false, none⟩, fs)
          else
            let beforeStats := countTranslations existing
            let fs1 := if w.backupOk then { fs with backup := fs.zhCn } else fs
            let merged := deepMerge existing addition
            let afterStats := countTranslations merged
            if w.zhCnOk then
              (⟨true, true, some ⟨beforeStats, afterStats,
                  (afterStats.total : Int) - (beforeStats.total : Int),
                  (afterStats.categories : Int) - (beforeStats.categories : Int)⟩⟩,
                { fs1 with zhCn := some (.json merged) })
            else
              (⟨false, false, none⟩, fs1)

/-- `FileUtils.validateFile` on a script file (apply.js lines 127-156): the
content is plausible iff it is non-empty and contains one of the JavaScript
markers `function`, `var`, `const`. -/
def validateJsContent (content : List Char) : Bool :=
  !content.isEmpty &&
    (hasSub (strL "function") content || hasSub (strL "var") content ||
      hasSub (strL "const") content)

/-- The patcher's two files: the target script and its pristine backup. -/
structure PatchFS where
  target : Option (List Char)
  backup : Option (List Char)
deriving DecidableEq

/-- The built-in dictionary of `PatchApplier.tryFallbackTranslation`
(apply.js lines 644-702). -/
def fallbackTranslations : List (List Char × List Char) :=
  [(strL "Settings", strL "设置"), (strL "Preferences", strL "偏好设置"),
   (strL "General", strL "常规"), (strL "Advanced", strL "高级"),
   (strL "Cancel", strL "取消"), (strL "OK", strL "确定"),
   (strL "Apply", strL "应用"), (strL "Save", strL "保存"),
   (strL "Close", strL "关闭"), (strL "Open", strL "打开"),
   (strL "Edit", strL "编辑"), (strL "Delete", strL "删除"),
   (strL "Add", strL "添加"), (strL "Remove", strL "移除"),
   (strL "Search", strL "搜索"), (strL "Find", strL "查找"),
   (strL "Replace", strL "替换"), (strL "Copy", strL "复制"),
   (strL "Paste", strL "粘贴"), (strL "Cut", strL "剪切"),
   (strL "Undo", strL "撤销"), (strL "Redo", strL "重做"),
   (strL "File", strL "文件"), (strL "View", strL "视图"),
   (strL "Help", strL "帮助"), (strL "Tools", strL "工具"),
   (strL "Window", strL "窗口"), (strL "Terminal", strL "终端"),
   (strL "Debug", strL "调试"), (strL "Run", strL "运行"),
   (strL "Stop", strL "停止"), (strL "Start", strL "开始"),
   (strL "End", strL "结束"), (strL "Next", strL "下一个"),
   (strL "Previous", strL "上一个"), (strL "Back", strL "返回"),
   (strL "Forward", strL "前进"), (strL "Home", strL "主页"),
   (strL "Page Up", strL "向上翻页"), (strL "Page Down", strL "向下翻页"),
   (strL "Insert", strL "插入"), (strL "Enter", strL "回车"),
   (strL "Tab", strL "制表符"), (strL "Space", strL "空格"),
   (strL "Escape", strL "退出"), (strL "F1", strL "F1"),
   (strL "F2", strL "F2"), (strL "F3", strL "F3"),
   (strL "F4", strL "F4"), (strL "F5", strL "F5"),
   (strL "F6", strL "F6"), (strL "F7", strL "F7"),
   (strL "F8", strL "F8"), (strL "F9", strL "F9"),
   (strL "F10", strL "F10"), (strL "F11", strL "F11"),
   (strL "F12", strL "F12")]

/-- Steps 6-7 of `PatchApplier.applyTranslations`: apply the dictionary to the
backup text; on zero replacements retry once with the built-in fallback
dictionary; `none` when both passes replace nothing. -/
def patchedContent (ts : List (List Char × List Char)) (mode : Mode) (bc : List Char) :
    Option (List Char) :=
  let result := applyTranslations bc ts mode
  if result.replacementsCount ≠ 0 then some result.content
  else
    let fb := applyTranslations bc fallbackTranslations mode
    if fb.replacementsCount ≠ 0 then some fb.content else none

/-- `PatchApplier.applyTranslations` (apply.js lines 535-632) over the
modelled file system, with the flattened dictionary as input: check the
target exists and validates, create the backup only if absent
(`createBackup`, lines 738-750), read the input text from the backup file
(line 578), substitute, write the result back and validate it, restoring
from the backup when the written file fails validation
(`finalizeTranslation`, lines 714-730).  `runPatchCore` is the part after the
backup step, reading the input text `bc` from the backup file. -/
def runPatchCore (ts : List (List Char × List Char)) (mode : Mode) (t bc : List Char) :
    Bool × PatchFS :=
  match patchedContent ts mode bc with
  | none => (false, ⟨some t, some bc⟩)
  | some newC =>
    if validateJsContent newC then (true, ⟨some newC, some bc⟩)
    else (false, ⟨some bc, some bc⟩)

/-- The content `createBackup` leaves in the backup file: the existing backup
if present, otherwise a copy of the target. -/
def backupContentOf (t : List Char) : Option (List Char) → List Char
  | some c => c
  | none => t

/-- `PatchApplier.applyTranslations` over the modelled file system (see the
doc comment above `runPatchCore`). -/
def runPatch (ts : List (List Char × List Char)) (mode : Mode) (fs : PatchFS) :
    Bool × PatchFS :=
  match fs.target with
  | none => (false, fs)
  | some t =>
    if validateJsContent t = false then (false, fs)
    else runPatchCore ts mode t (backupContentOf t fs.backup)

/-- `Object.assign` on a flattened string-to-string map. -/
def smapAssign : List (List Char × List Char) → List (List Char × List Char) →
    List (List Char × List Char)
  | target, [] => target
  | target, (k, v) :: rest => smapAssign (smapSet target k v) rest

mutual
/-- The validator's own recursive `flattenTranslations` (validator lines
128-140): string values are stored under their bare key; object-typed
non-null values (objects and arrays) are flattened recursively into a fresh
map which is then `Object.assign`ed over the accumulator. -/
def fbObj : List (List Char × List Char) → JObj → List (List Char × List Char)
  | acc, .nil => acc
  | acc, .cons k (JVal.str s) rest => fbObj (smapSet acc k s) rest
  | acc, .cons _ (JVal.obj fields) rest => fbObj (smapAssign acc (fbObj [] fields)) rest
  | acc, .cons _ (JVal.arr xs) rest => fbObj (smapAssign acc (fbArr [] 0 xs)) rest
  | acc, .cons _ _ rest => fbObj acc rest
/-- Recursive flatten of an array value: its `Object.entries` are
index-keyed. -/
def fbArr : List (List Char × List Char) → Nat → JArr → List (List Char × List Char)
  | acc, _, .nil => acc
  | acc, i, .cons (JVal.str s) xs => fbArr (smapSet acc (Nat.repr i).data s) (i + 1) xs
  | acc, i, .cons (JVal.obj fields) xs => fbArr (smapAssign acc (fbObj [] fields)) (i + 1) xs
  | acc, i, .cons (JVal.arr ys) xs => fbArr (smapAssign acc (fbArr [] 0 ys)) (i + 1) xs
  | acc, i, .cons _ xs => fbArr acc (i + 1) xs
end

/-- The fixed reference list `commonEnglishTerms` of
`detectUntranslatedEntries` (validator lines 93-105). -/
def commonEnglishTerms : List (List Char) :=
  [strL "Page Down", strL "Page Up", strL "Forward", strL "Back", strL "Tools",
   strL "View", strL "Help",
   strL "File", strL "Edit", strL "Selection", strL "Go", strL "Run",
   strL "Terminal", strL "Window",
   strL "Search", strL "Replace", strL "Find", strL "Navigate", strL "Debug",
   strL "Extensions",
   strL "Settings", strL "Preferences", strL "General", strL "Advanced",
   strL "Basic",
   strL "Cancel", strL "OK", strL "Apply", strL "Save", strL "Close",
   strL "Open", strL "Delete",
   strL "Copy", strL "Paste", strL "Cut", strL "Undo", strL "Redo",
   strL "Select All",
   strL "New File", strL "New Folder", strL "Rename", strL "Move",
   strL "Duplicate",
   strL "Import", strL "Export", strL "Upload", strL "Download", strL "Sync",
   strL "Login", strL "Logout", strL "Sign In", strL "Sign Out", strL "Account",
   strL "Profile", strL "Dashboard", strL "Home", strL "About", strL "Version",
   strL "Update", strL "Upgrade", strL "Install", strL "Uninstall",
   strL "Enable", strL "Disable"]

/-- `detectUntranslatedEntries` (validator lines 85-123): a common term is
untranslated when its bare key is absent from the recursively flattened map
or maps to a falsy (empty) string. -/
def detectUntranslated (translations : JVal) : List (List Char) :=
  let flat := fbObj [] (jsEntries translations)
  commonEnglishTerms.filter (fun term =>
    match smapGet flat term with
    | some v => v.isEmpty
    | none => true)

/-- The `stats` record of `TranslationValidator.validateTranslationFile`. -/
structure ValidationStats where
  totalGroups : Nat
  totalEntries : Nat
  emptyEntries : Nat
  duplicateKeys : Nat
  longTranslations : Nat
  specialChars : Nat
  missingTranslations : Nat
  untranslatedEntries : Nat
deriving DecidableEq

/-- The report returned by `validateTranslationFile` (the `untranslated`
field keeps only the English text of each record). -/
structure ValidationReport where
  isValid : Bool
  issues : List (List Char)
  stats : ValidationStats
  untranslated : List (List Char)
deriving DecidableEq

/-- The running state of the validator's group loop. -/
structure VLoopState where
  issues : List (List Char)
  totalEntries : Nat
  emptyEntries : Nat
  duplicateKeys : Nat
  longTranslations : Nat
  specialChars : Nat
  allKeys : List (List Char)
  dupKeys : List (List Char)

/-- Issue message for an empty key. -/
def msgEmptyKey (g : List Char) : List Char :=
  strL "发现空键在分组 \"" ++ g ++ strL "\""

/-- Issue message for a missing or non-string value. -/
def msgInvalidVal (g k : List Char) : List Char :=
  strL "键 \"" ++ k ++ strL "\" 在分组 \"" ++ g ++ strL "\" 中的翻译值无效"

/-- Issue message for a whitespace-only value. -/
def msgEmptyVal (g k : List Char) : List Char :=
  strL "键 \"" ++ k ++ strL "\" 在分组 \"" ++ g ++ strL "\" 中的翻译为空"

/-- Issue message for an over-long value. -/
def msgLong (g k : List Char) (n : Nat) : List Char :=
  strL "键 \"" ++ k ++ strL "\" 在分组 \"" ++ g ++ strL "\" 中的翻译过长 (" ++
    (Nat.repr n).data ++ strL " 字符)"

/-- Issue message for a value holding literal escape sequences. -/
def msgEsc (g k : List Char) : List Char :=
  strL "键 \"" ++ k ++ strL "\" 在分组 \"" ++ g ++ strL "\" 中包含转义字符"

/-- Issue message for a structurally invalid group. -/
def msgBadGroup (g : List Char) : List Char :=
  strL "分组 \"" ++ g ++ strL "\" 结构无效"

/-- Aggregate issue message for duplicate keys. -/
def msgDups (n : Nat) : List Char :=
  strL "发现 " ++ (Nat.repr n).data ++ strL " 个重复键"

/-- Issue message for too few entries. -/
def msgTooFew : List Char := strL "翻译条目数量过少，可能影响汉化效果"

/-- Issue message for untranslated common terms. -/
def msgUntranslated (n : Nat) : List Char :=
  strL "发现 " ++ (Nat.repr n).data ++ strL " 个未翻译的词条"

/-- Issue message for a non-object top level. -/
def msgBadFormat : List Char := strL "翻译文件格式无效"

/-- Duplicate-key tracking of the validator (lines 232-238): a full key seen
before bumps the duplicate count and joins the duplicate set; a fresh one
joins the seen set.  The issues list is untouched. -/
def vDupTrack (st : VLoopState) (fullKey : List Char) : VLoopState :=
  if fullKey ∈ st.allKeys then
    { st with
        dupKeys := if fullKey ∈ st.dupKeys then st.dupKeys else st.dupKeys ++ [fullKey],
        duplicateKeys := st.duplicateKeys + 1 }
  else { st with allKeys := st.allKeys ++ [fullKey] }

/-- Value checks of the validator (lines 240-263): missing/non-string,
whitespace-only, over-long, and escape-holding values. -/
def vValCheck (g k : List Char) (st : VLoopState) : JVal → VLoopState
  | .str s =>
    if s.isEmpty then
      { st with issues := st.issues ++ [msgInvalidVal g k],
                emptyEntries := st.emptyEntries + 1 }
    else if s.all jsIsSpace then
      { st with issues := st.issues ++ [msgEmptyVal g k],
                emptyEntries := st.emptyEntries + 1 }
    else
      let st2 :=
        if 500 < s.length then
          { st with issues := st.issues ++ [msgLong g k s.length],
                    longTranslations := st.longTranslations + 1 }
        else st
      if hasSub (strL "\\n") s || hasSub (strL "\\t") s || hasSub (strL "\\r") s then
        { st2 with issues := st2.issues ++ [msgEsc g k],
                   specialChars := st2.specialChars + 1 }
      else st2
  | _ =>
    { st with issues := st.issues ++ [msgInvalidVal g k],
              emptyEntries := st.emptyEntries + 1 }

/-- One entry of the validator's group loop (validator lines 221-264):
count the entry; flag an empty key; track duplicate `group.key` pairs; run
the value checks. -/
def vEntryStep (g : List Char) (st : VLoopState) (k : List Char) (v : JVal) : VLoopState :=
  let st1 := { st with totalEntries := st.totalEntries + 1 }
  if k.all jsIsSpace then
    { st1 with issues := st1.issues ++ [msgEmptyKey g],
               emptyEntries := st1.emptyEntries + 1 }
  else vValCheck g k (vDupTrack st1 (g ++ '.' :: k)) v

/-- The validator's loop over one group's entries. -/
def vEntriesGo (g : List Char) : VLoopState → JObj → VLoopState
  | st, .nil => st
  | st, .cons k v rest => vEntriesGo g (vEntryStep g st k v) rest

/-- The validator's loop over the groups (validator lines 214-265): a falsy
or non-object-typed group is flagged and skipped; arrays pass the type test
and their index entries are validated like any group. -/
def vGroupsGo : VLoopState → JObj → VLoopState
  | st, .nil => st
  | st, .cons g group rest =>
    if isObjNotNull group then vGroupsGo (vEntriesGo g st (jsEntries group)) rest
    else vGroupsGo { st with issues := st.issues ++ [msgBadGroup g] } rest

/-- `TranslationValidator.validateTranslationFile` after a successful read and
parse (validator lines 196-287): the structure check, untranslated-term
detection, the group loop, the aggregate duplicate issue, the
minimum-entry-count issue, and the untranslated-count issue;
`isValid` is `issues.length === 0`. -/
def validateTranslationData (translations : JVal) : ValidationReport :=
  if isObjNotNull translations = false then
    ⟨false, [msgBadFormat], ⟨0, 0, 0, 0, 0, 0, 0, 0⟩, []⟩
  else
    let untranslated := detectUntranslated translations
    let totalGroups := (jsEntries translations).size
    let st := vGroupsGo ⟨[], 0, 0, 0, 0, 0, [], []⟩ (jsEntries translations)
    let issues1 :=
      if 0 < st.dupKeys.length then st.issues ++ [msgDups st.dupKeys.length] else st.issues
    let issues2 := if st.totalEntries < 10 then issues1 ++ [msgTooFew] else issues1
    let issues3 :=
      if 0 < untranslated.length then issues2 ++ [msgUntranslated untranslated.length]
      else issues2
    ⟨issues3.isEmpty, issues3,
      ⟨totalGroups, st.totalEntries, st.emptyEntries, st.duplicateKeys,
        st.longTranslations, st.specialChars, 0, untranslated.length⟩,
      untranslated⟩

/-- The grouped dictionary `{"menu":{"File":"文件","Edit":"编辑"}}` of the
specification's scenario. -/
def scenarioDict : JVal :=
  .obj (.cons (strL "menu")
    (.obj (.cons (strL "File") (.str (strL "文件"))
      (.cons (strL "Edit") (.str (strL "编辑")) .nil))) .nil)

/-- C1: on the grouped dictionary `{"menu":{"File":"文件","Edit":"编辑"}}`,
flattened as the specification directs (keys are the original texts) and then
run through the substitution engine in direct mode against
`var a = "File"; var b = "Edit";`, the output is exactly
`var a = "文件"; var b = "编辑";` with 2 hits, no misses and no errors. -/
theorem C1_direct_scenario :
    applyTranslations (strL "var a = \"File\"; var b = \"Edit\";")
        (flattenSpec scenarioDict) .direct =
      ⟨strL "var a = \"文件\"; var b = \"编辑\";", 2, [], []⟩ := by
  rfl

/-- The one-entry grouped dictionary `{"menu":{"File":"文件"}}`. -/
def c2Dict : JVal :=
  .obj (.cons (strL "menu") (.obj (.cons (strL "File") (.str (strL "文件")) .nil)) .nil)

/-- C2 (failing input): the implementation's `flattenTranslations` keys the
flattened map by `` `${groupName}.${key}` ``, so on `{"menu":{"File":"文件"}}`
the only flattened key is `menu.File` and the original text `File` is absent
from the result — contradicting the contract that `flatten` maps original
text to translated text. -/
theorem C2_flatten_prefixed_keys :
    flattenTranslations c2Dict = [(strL "menu.File", strL "文件")] ∧
    smapGet (flattenTranslations c2Dict) (strL "File") = none ∧
    flattenSpec c2Dict = [(strL "File", strL "文件")] := by
  exact ⟨rfl, rfl, rfl⟩

/-- C3: a successful patch run on a file system with no backup yet snapshots
the pristine target as the backup, and a second run with the same dictionary
and mode reads its input from that pristine backup (never from the patched
target), succeeds, and leaves the file system byte-identical — reapplication
is idempotent relative to the original file. -/
theorem C3_backup_replay_idempotent (ts : List (List Char × List Char)) (mode : Mode)
    (fs fs₁ : PatchFS) (hb : fs.backup = none) (h : runPatch ts mode fs = (true, fs₁)) :
    fs₁.backup = fs.target ∧ runPatch ts mode fs₁ = (true, fs₁) := by
  obtain ⟨tgt, bk⟩ := fs
  replace hb : bk = none := hb
  subst hb
  cases tgt with
  | none => simp [runPatch] at h
  | some t =>
    rw [runPatch] at h
    dsimp only at h
    by_cases hv : validateJsContent t = false
    · rw [if_pos hv] at h
      simp at h
    · rw [if_neg hv] at h
      rw [runPatchCore] at h
      dsimp only [backupContentOf] at h
      cases hpc : patchedContent ts mode t with
      | none =>
        rw [hpc] at h
        simp at h
      | some newC =>
        rw [hpc] at h
        dsimp only at h
        by_cases hv2 : validateJsContent newC = true
        · rw [if_pos hv2] at h
          injection h with h1 h2
          subst h2
          refine ⟨rfl, ?_⟩
          rw [runPatch]
          dsimp only
          rw [if_neg (by simp [hv2]), runPatchCore]
          dsimp only [backupContentOf]
          rw [hpc]
          dsimp only
          rw [if_pos hv2]
        · rw [if_neg hv2] at h
          simp at h

/-- Witness for C3 at a concrete file system and dictionary. -/
theorem C3_backup_replay_idempotent_witness :
    (⟨some (strL "var a = \"File\";"), none⟩ : PatchFS).backup = none ∧
    runPatch [(strL "File", strL "文件")] .direct ⟨some (strL "var a = \"File\";"), none⟩ =
      (true, ⟨some (strL "var a = \"文件\";"), some (strL "var a = \"File\";")⟩) ∧
    (⟨some (strL "var a = \"文件\";"), some (strL "var a = \"File\";")⟩ : PatchFS).backup =
      (⟨some (strL "var a = \"File\";"), none⟩ : PatchFS).target ∧
    runPatch [(strL "File", strL "文件")] .direct
        ⟨some (strL "var a = \"文件\";"), some (strL "var a = \"File\";")⟩ =
      (true, ⟨some (strL "var a = \"文件\";"), some (strL "var a = \"File\";")⟩) := by
  have h := C3_backup_replay_idempotent [(strL "File", strL "文件")] .direct
    ⟨some (strL "var a = \"File\";"), none⟩
    ⟨some (strL "var a = \"文件\";"), some (strL "var a = \"File\";")⟩ rfl (by rfl)
  exact ⟨rfl, by rfl, h.1, h.2⟩

/-- First-occurrence association lookup on a Lean-level list of pairs. -/
def alookup {α : Type} : List (List Char × α) → List Char → Option α
  | [], _ => none
  | (k', v) :: rest, k => if k' = k then some v else alookup rest k

/-- A grouped dictionary at the Lean level: categories of string pairs. -/
abbrev GDict := List (List Char × List (List Char × List Char))

/-- A category of string pairs as a JSON object. -/
def catObj : List (List Char × List Char) → JObj
  | [] => .nil
  | (k, v) :: rest => .cons k (.str v) (catObj rest)

/-- A grouped dictionary as a JSON object. -/
def gdictObj : GDict → JObj
  | [] => .nil
  | (c, ps) :: rest => .cons c (.obj (catObj ps)) (gdictObj rest)

/-- Leaf lookup in a grouped dictionary. -/
def gdLookup (g : GDict) (c k : List Char) : Option (List Char) :=
  match alookup g c with
  | some ps => alookup ps k
  | none => none

/-- Leaf lookup in a JSON object of categories. -/
def jLookup2 (o : JObj) (c k : List Char) : Option JVal :=
  match objGet o c with
  | some (.obj ps) => objGet ps k
  | _ => none

/-- Structural induction principle for `JObj` alone (the mutual recursor has
several motives, which the `induction` tactic cannot use directly). -/
theorem JObj.inductionOn {motive : JObj → Prop} (nil : motive .nil)
    (cons : ∀ k v rest, motive rest → motive (.cons k v rest)) : ∀ o, motive o
  | .nil => nil
  | .cons k v rest => cons k v rest (JObj.inductionOn nil cons rest)

theorem objGet_objSet_same (o : JObj) (k : List Char) (v : JVal) :
    objGet (objSet o k v) k = some v := by
  induction o using JObj.inductionOn with
  | nil => simp [objSet, objGet]
  | cons k' v' rest ih =>
    by_cases hk : k' = k
    · simp [objSet, hk, objGet]
    · simp [objSet, hk, objGet, ih]

theorem objGet_objSet_ne (o : JObj) (k0 k : List Char) (v : JVal) (hk : k0 ≠ k) :
    objGet (objSet o k0 v) k = objGet o k := by
  induction o using JObj.inductionOn with
  | nil => simp [objSet, objGet, hk]
  | cons k' v' rest ih =>
    by_cases hk' : k' = k0
    · subst hk'
      simp [objSet, objGet, hk]
    · simp only [objSet, if_neg hk']
      by_cases hkk : k' = k
      · simp [objGet, hkk]
      · simp [objGet, hkk, ih]

/-- The category-merge fold: every string value of the source is written over
the target in order. -/
def foldSet : JObj → List (List Char × List Char) → JObj
  | tgt, [] => tgt
  | tgt, (k, v) :: rest => foldSet (objSet tgt k (.str v)) rest

theorem deepMergeE_cat (ps : List (List Char × List Char)) :
    ∀ tgt, deepMergeE tgt (catObj ps) = foldSet tgt ps := by
  induction ps with
  | nil => intro tgt; rfl
  | cons p rest ih =>
    intro tgt
    obtain ⟨k, v⟩ := p
    simp only [catObj, deepMergeE, foldSet]
    exact ih _

theorem foldSet_objGet_ne (ps : List (List Char × List Char)) :
    ∀ tgt k, k ∉ ps.map Prod.fst → objGet (foldSet tgt ps) k = objGet tgt k := by
  induction ps with
  | nil => intro tgt k _; rfl
  | cons p rest ih =>
    intro tgt k hk
    obtain ⟨k1, v1⟩ := p
    simp only [List.map_cons, List.mem_cons] at hk
    push_neg at hk
    simp only [foldSet]
    rw [ih _ k hk.2, objGet_objSet_ne _ _ _ _ (Ne.symm hk.1)]

theorem foldSet_objGet_mem (ps : List (List Char × List Char)) :
    ∀ tgt k v, (ps.map Prod.fst).Nodup → alookup ps k = some v →
      objGet (foldSet tgt ps) k = some (.str v) := by
  induction ps with
  | nil => intro tgt k v _ hl; simp [alookup] at hl
  | cons p rest ih =>
    intro tgt k v hnd hl
    obtain ⟨k1, v1⟩ := p
    simp only [List.map_cons, List.nodup_cons] at hnd
    by_cases hk : k1 = k
    · subst hk
      simp only [alookup, if_pos rfl] at hl
      cases hl
      simp only [foldSet]
      rw [foldSet_objGet_ne _ _ _ hnd.1, objGet_objSet_same]
    · simp only [alookup, if_neg hk] at hl
      simp only [foldSet]
      exact ih _ k v hnd.2 hl

/-- The top-level merge fold over the addition's categories. -/
def topFold : JObj → GDict → JObj
  | tgt, [] => tgt
  | tgt, (c, ps) :: rest =>
    topFold (objSet tgt c (.obj (deepMergeE (mergeTargetOf (objGet tgt c)) (catObj ps)))) rest

theorem deepMergeE_gdict (B : GDict) :
    ∀ tgt, deepMergeE tgt (gdictObj B) = topFold tgt B := by
  induction B with
  | nil => intro tgt; rfl
  | cons p rest ih =>
    intro tgt
    obtain ⟨c, ps⟩ := p
    simp only [gdictObj, deepMergeE, topFold]
    exact ih _

theorem topFold_objGet_ne (B : GDict) :
    ∀ tgt c, c ∉ B.map Prod.fst → objGet (topFold tgt B) c = objGet tgt c := by
  induction B with
  | nil => intro tgt c _; rfl
  | cons p rest ih =>
    intro tgt c hc
    obtain ⟨c1, ps1⟩ := p
    simp only [List.map_cons, List.mem_cons] at hc
    push_neg at hc
    simp only [topFold]
    rw [ih _ c hc.2, objGet_objSet_ne _ _ _ _ (Ne.symm hc.1)]

theorem topFold_objGet_mem (B : GDict) :
    ∀ tgt c ps, (B.map Prod.fst).Nodup → alookup B c = some ps →
      objGet (topFold tgt B) c =
        some (.obj (deepMergeE (mergeTargetOf (objGet tgt c)) (catObj ps))) := by
  induction B with
  | nil => intro tgt c ps _ hl; simp [alookup] at hl
  | cons p rest ih =>
    intro tgt c ps hnd hl
    obtain ⟨c1, ps1⟩ := p
    simp only [List.map_cons, List.nodup_cons] at hnd
    by_cases hc : c1 = c
    · subst hc
      simp only [alookup, if_pos rfl] at hl
      cases hl
      simp only [topFold]
      rw [topFold_objGet_ne _ _ _ hnd.1, objGet_objSet_same]
    · simp only [alookup, if_neg hc] at hl
      simp only [topFold]
      rw [ih _ c ps hnd.2 hl, objGet_objSet_ne _ _ _ _ hc]

theorem objGet_gdictObj (A : GDict) (c : List Char) :
    objGet (gdictObj A) c = (alookup A c).map (fun ps => .obj (catObj ps)) := by
  induction A with
  | nil => rfl
  | cons p rest ih =>
    obtain ⟨c1, ps1⟩ := p
    by_cases hc : c1 = c
    · simp [gdictObj, objGet, alookup, hc]
    · simp [gdictObj, objGet, alookup, hc, ih]

theorem objGet_catObj (ps : List (List Char × List Char)) (k : List Char) :
    objGet (catObj ps) k = (alookup ps k).map JVal.str := by
  induction ps with
  | nil => rfl
  | cons p rest ih =>
    obtain ⟨k1, v1⟩ := p
    by_cases hk : k1 = k
    · simp [catObj, objGet, alookup, hk]
    · simp [catObj, objGet, alookup, hk, ih]

theorem alookup_eq_none_iff {α : Type} :
    ∀ (l : List (List Char × α)) (k : List Char),
      alookup l k = none ↔ k ∉ l.map Prod.fst
  | [], k => by simp [alookup]
  | (k1, v1) :: rest, k => by
    by_cases hk : k1 = k
    · subst hk
      constructor
      · intro h
        rw [alookup, if_pos rfl] at h
        exact Option.noConfusion h
      · intro h
        simp only [List.map_cons] at h
        exact (h (List.mem_cons_self _ _)).elim
    · simp only [alookup, if_neg hk, List.map_cons, List.mem_cons, not_or]
      rw [alookup_eq_none_iff rest k]
      exact ⟨fun h => ⟨fun he => hk he.symm, h⟩, fun h => h.2⟩

theorem alookup_mem {α : Type} :
    ∀ (l : List (List Char × α)) (k : List Char) (v : α),
      alookup l k = some v → (k, v) ∈ l
  | [], k, v, h => by simp [alookup] at h
  | (k1, v1) :: rest, k, v, h => by
    by_cases hk : k1 = k
    · subst hk
      simp only [alookup, if_pos rfl] at h
      cases h
      exact .head _
    · simp only [alookup, if_neg hk] at h
      exact .tail _ (alookup_mem rest k v h)

theorem mergeTargetOf_obj (x : JObj) : mergeTargetOf (some (.obj x)) = x := rfl

/-- C4: for grouped dictionaries `A` and `B` (the addition `B` with unique
category names and unique keys per category, as JavaScript objects guarantee),
`deepMerge` gives every leaf of `B` with `B`'s value, preserves every leaf
present only in `A` unchanged, and merges two categories present on both
sides recursively (`B`'s string leaves overwriting `A`'s). -/
theorem C4_deep_merge (A B : GDict)
    (hBc : (B.map Prod.fst).Nodup)
    (hBk : ∀ cb ∈ B, (cb.2.map Prod.fst).Nodup) :
    (∀ c k v, gdLookup B c k = some v →
        jLookup2 (jsEntries (deepMerge (.obj (gdictObj A)) (.obj (gdictObj B)))) c k =
          some (.str v)) ∧
    (∀ c k v, gdLookup A c k = some v → gdLookup B c k = none →
        jLookup2 (jsEntries (deepMerge (.obj (gdictObj A)) (.obj (gdictObj B)))) c k =
          some (.str v)) ∧
    (∀ c psA psB, alookup A c = some psA → alookup B c = some psB →
        objGet (jsEntries (deepMerge (.obj (gdictObj A)) (.obj (gdictObj B)))) c =
          some (.obj (deepMergeE (catObj psA) (catObj psB)))) := by
  have hM : jsEntries (deepMerge (.obj (gdictObj A)) (.obj (gdictObj B))) =
      topFold (gdictObj A) B := by
    show deepMergeE (gdictObj A) (gdictObj B) = _
    exact deepMergeE_gdict B _
  refine ⟨?_, ?_, ?_⟩
  · intro c k v h
    rw [gdLookup] at h
    cases hBc' : alookup B c with
    | none => rw [hBc'] at h; exact absurd h (by simp)
    | some ps =>
      rw [hBc'] at h
      dsimp only at h
      rw [hM, jLookup2, topFold_objGet_mem B _ c ps hBc hBc']
      rw [deepMergeE_cat]
      exact foldSet_objGet_mem ps _ k v (hBk (c, ps) (alookup_mem B c ps hBc')) h
  · intro c k v hA hB
    rw [gdLookup] at hA hB
    cases hAc : alookup A c with
    | none => rw [hAc] at hA; exact absurd hA (by simp)
    | some psA =>
      rw [hAc] at hA
      dsimp only at hA
      cases hBc' : alookup B c with
      | none =>
        have hcB : c ∉ B.map Prod.fst := (alookup_eq_none_iff B c).mp hBc'
        rw [hM, jLookup2, topFold_objGet_ne B _ c hcB, objGet_gdictObj, hAc]
        simp only [Option.map_some']
        rw [objGet_catObj, hA]
        rfl
      | some psB =>
        rw [hBc'] at hB
        dsimp only at hB
        have hkB : k ∉ psB.map Prod.fst := (alookup_eq_none_iff psB k).mp hB
        rw [hM, jLookup2, topFold_objGet_mem B _ c psB hBc hBc',
          objGet_gdictObj, hAc]
        show objGet (deepMergeE (catObj psA) (catObj psB)) k = some (.str v)
        rw [deepMergeE_cat, foldSet_objGet_ne psB _ k hkB, objGet_catObj, hA]
        rfl
  · intro c psA psB hAc hBc'
    rw [hM, topFold_objGet_mem B _ c psB hBc hBc', objGet_gdictObj, hAc]
    rfl

/-- Witness for C4 at concrete dictionaries
`A = {"m":{"File":"F1","Old":"O"}}`,
`B = {"m":{"File":"F2"},"n":{"New":"N"}}`. -/
theorem C4_deep_merge_witness :
    jLookup2 (jsEntries (deepMerge
        (.obj (gdictObj [(strL "m", [(strL "File", strL "F1"), (strL "Old", strL "O")])]))
        (.obj (gdictObj [(strL "m", [(strL "File", strL "F2")]),
                         (strL "n", [(strL "New", strL "N")])]))))
        (strL "m") (strL "File") = some (.str (strL "F2")) ∧
    jLookup2 (jsEntries (deepMerge
        (.obj (gdictObj [(strL "m", [(strL "File", strL "F1"), (strL "Old", strL "O")])]))
        (.obj (gdictObj [(strL "m", [(strL "File", strL "F2")]),
                         (strL "n", [(strL "New", strL "N")])]))))
        (strL "m") (strL "Old") = some (.str (strL "O")) := by
  have h := C4_deep_merge
    [(strL "m", [(strL "File", strL "F1"), (strL "Old", strL "O")])]
    [(strL "m", [(strL "File", strL "F2")]), (strL "n", [(strL "New", strL "N")])]
    (by decide) (by decide)
  exact ⟨h.1 (strL "m") (strL "File") (strL "F2") (by rfl),
         h.2.1 (strL "m") (strL "Old") (strL "O") (by rfl) (by rfl)⟩

/-- The dictionary `{"a":{"x":1}}`: one category with one non-string entry. -/
def c5zh : JVal := .obj (.cons (strL "a") (.obj (.cons (strL "x") (.num 1) .nil)) .nil)

/-- The merger's file system for the C5 counterexample. -/
def c5fs : MergeFS := ⟨some (.json c5zh), some (.json c5zh), none⟩

/-- C5 (counterexample): merging `{"a":{"x":1}}` into itself reports
`before.totalEntries = 1` — `countTranslations` counts the keys of
object-typed categories — while the dictionary has no string-valued leaf at
all, so the reported statistics are not computed by string-leaf counting. -/
theorem C5_counterexample :
    (checkAndMerge c5fs ⟨true, true⟩).1.stats = some ⟨⟨1, 1⟩, ⟨1, 1⟩, 0, 0⟩ ∧
    specLeafCount c5zh = 0 ∧
    (checkAndMerge c5fs ⟨true, true⟩).1.stats.map (fun st => st.before.total) ≠
      some (specLeafCount c5zh) := by
  exact ⟨rfl, rfl, by decide⟩

theorem catObj_size (ps : List (List Char × List Char)) : (catObj ps).size = ps.length := by
  induction ps with
  | nil => rfl
  | cons p rest ih => obtain ⟨k, v⟩ := p; simp [catObj, JObj.size, ih]

theorem specLeafCountO_catObj (ps : List (List Char × List Char)) :
    specLeafCountO (catObj ps) = ps.length := by
  induction ps with
  | nil => rfl
  | cons p rest ih =>
    obtain ⟨k, v⟩ := p
    simp only [catObj, specLeafCountO, specLeafCount, ih, List.length_cons]
    omega

theorem countGo_gdict (g : GDict) :
    ∀ acc, (countGo acc (gdictObj g)).total = acc.total + specLeafCountO (gdictObj g) := by
  induction g with
  | nil => intro acc; simp [gdictObj, countGo, specLeafCountO]
  | cons p rest ih =>
    intro acc
    obtain ⟨c, ps⟩ := p
    simp only [gdictObj, countGo, isObjNotNull, if_true, specLeafCountO, specLeafCount]
    rw [ih]
    simp only [jsEntries, catObj_size, specLeafCountO_catObj]
    omega

/-- C5 (amended): the merge result's `added.translations` (and
`added.categories`) always equal the `after` minus `before` totals as
computed by `countTranslations`, which counts the keys of object-typed
categories; on flat grouped dictionaries of string values this key-counting
coincides with counting string-valued leaves. -/
theorem C5_merge_stats (fs : MergeFS) (w : WriteOracle) (st : MergeStats)
    (hs : (checkAndMerge fs w).1.stats = some st) :
    (st.addedTranslations = (st.afterM.total : Int) - st.before.total ∧
      st.addedCategories = (st.afterM.categories : Int) - st.before.categories) ∧
    (∀ g : GDict, (countTranslations (.obj (gdictObj g))).total =
        specLeafCount (.obj (gdictObj g))) := by
  constructor
  · rw [checkAndMerge] at hs
    cases hy : fs.yes with
    | none => rw [hy] at hs; simp at hs
    | some yd =>
      rw [hy] at hs
      dsimp only at hs
      cases hz : parseJsonOf fs.zhCn with
      | none => rw [hz] at hs; simp at hs
      | some ex =>
        rw [hz] at hs
        dsimp only at hs
        by_cases ht : isTruthy ex = false
        · rw [if_pos ht] at hs; simp at hs
        · rw [if_neg ht] at hs
          cases yd with
          | malformed => simp [parseJsonOf] at hs
          | json av =>
            rw [show parseJsonOf (some (FileData.json av)) = some av from rfl] at hs
            dsimp only at hs
            by_cases ht2 : isTruthy av = false
            · rw [if_pos ht2] at hs; simp at hs
            · rw [if_neg ht2] at hs
              by_cases hw : w.zhCnOk = true
              · rw [if_pos hw] at hs
                cases hs
                exact ⟨rfl, rfl⟩
              · rw [if_neg hw] at hs; simp at hs
  · intro g
    show (countGo ⟨0, 0⟩ (gdictObj g)).total = specLeafCountO (gdictObj g)
    rw [countGo_gdict]
    simp

/-- Witness for C5 at a concrete merge of flat dictionaries. -/
theorem C5_merge_stats_witness :
    ((⟨⟨1, 1⟩, ⟨2, 2⟩, 1, 1⟩ : MergeStats).addedTranslations =
        ((2 : Nat) : Int) - ((1 : Nat) : Int) ∧
      (⟨⟨1, 1⟩, ⟨2, 2⟩, 1, 1⟩ : MergeStats).addedCategories =
        ((2 : Nat) : Int) - ((1 : Nat) : Int)) ∧
    (countTranslations (.obj (gdictObj [(strL "m", [(strL "File", strL "文件")])]))).total =
      specLeafCount (.obj (gdictObj [(strL "m", [(strL "File", strL "文件")])])) := by
  have h := C5_merge_stats
    ⟨some (.json (.obj (.cons (strL "a") (.obj (.cons (strL "x") (.str (strL "1")) .nil)) .nil))),
     some (.json (.obj (.cons (strL "b") (.obj (.cons (strL "y") (.str (strL "2")) .nil)) .nil))),
     none⟩
    ⟨true, true⟩ ⟨⟨1, 1⟩, ⟨2, 2⟩, 1, 1⟩ (by rfl)
  exact ⟨h.1, h.2 [(strL "m", [(strL "File", strL "文件")])]⟩

/-- The primary dictionary `{"a":{"x":"1"}}` for C6. -/
def c6A : JVal :=
  .obj (.cons (strL "a") (.obj (.cons (strL "x") (.str (strL "1")) .nil)) .nil)

/-- The addition dictionary `{"b":{"y":"2"}}` for C6. -/
def c6B : JVal :=
  .obj (.cons (strL "b") (.obj (.cons (strL "y") (.str (strL "2")) .nil)) .nil)

/-- The merger's file system for C6: both files present, no backup yet. -/
def c6fs : MergeFS := ⟨some (.json c6A), some (.json c6B), none⟩

/-- The merged dictionary `{"a":{"x":"1"},"b":{"y":"2"}}`. -/
def c6Merged : JVal :=
  .obj (.cons (strL "a") (.obj (.cons (strL "x") (.str (strL "1")) .nil))
    (.cons (strL "b") (.obj (.cons (strL "y") (.str (strL "2")) .nil)) .nil))

/-- C6 (counterexample): when the backup write fails (`createBackup` returns
false), `checkAndMerge` logs a warning and continues: the merge completes and
the primary file is overwritten with content differing from the pre-merge
primary (it gains the category `b`), while no backup file exists — the
merge does overwrite the primary without a backup having been made. -/
theorem C6_counterexample :
    (checkAndMerge c6fs ⟨false, true⟩).1.merged = true ∧
    (checkAndMerge c6fs ⟨false, true⟩).2.backup = none ∧
    (checkAndMerge c6fs ⟨false, true⟩).2.zhCn = some (.json c6Merged) ∧
    objGet (jsEntries c6Merged) (strL "b") =
      some (.obj (.cons (strL "y") (.str (strL "2")) .nil)) ∧
    objGet (jsEntries c6A) (strL "b") = none := by
  exact ⟨rfl, rfl, rfl, rfl, rfl⟩

/-- C6 (amended): the backup is always attempted before the merged result is
written; whenever the backup write succeeds and the merge reports
`merged = true`, the backup file afterwards holds exactly the pre-merge
primary content.  (A failed backup write, however, does not stop the merge.) -/
theorem C6_backup_before_write (fs : MergeFS) (w : WriteOracle)
    (hbw : w.backupOk = true) (hm : (checkAndMerge fs w).1.merged = true) :
    (checkAndMerge fs w).2.backup = fs.zhCn := by
  rw [checkAndMerge] at hm ⊢
  cases hy : fs.yes with
  | none => rw [hy] at hm; simp at hm
  | some yd =>
    rw [hy] at hm
    dsimp only at hm ⊢
    cases hz : parseJsonOf fs.zhCn with
    | none => rw [hz] at hm; simp at hm
    | some ex =>
      rw [hz] at hm
      dsimp only at hm ⊢
      by_cases ht : isTruthy ex = false
      · rw [if_pos ht] at hm; simp at hm
      · rw [if_neg ht] at hm ⊢
        cases yd with
        | malformed => simp [parseJsonOf] at hm
        | json av =>
          rw [show parseJsonOf (some (FileData.json av)) = some av from rfl] at hm ⊢
          dsimp only at hm ⊢
          by_cases ht2 : isTruthy av = false
          · rw [if_pos ht2] at hm; simp at hm
          · rw [if_neg ht2] at hm ⊢
            by_cases hw : w.zhCnOk = true
            · rw [if_pos hw] at hm ⊢
              rw [if_pos hbw]
            · rw [if_neg hw] at hm; simp at hm

/-- Witness for C6 at a concrete merge with a succeeding backup write. -/
theorem C6_backup_before_write_witness :
    (checkAndMerge c6fs ⟨true, true⟩).2.backup = c6fs.zhCn :=
  C6_backup_before_write c6fs ⟨true, true⟩ rfl (by rfl)

theorem perm_insertByLen (x : List Char × List Char) :
    ∀ l, (insertByLen x l).Perm (x :: l) := by
  intro l
  induction l with
  | nil => rfl
  | cons y ys ih =>
    rw [insertByLen]
    by_cases hxy : x.1.length < y.1.length
    · rw [if_pos hxy]
      exact (ih.cons y).trans (List.Perm.swap x y ys)
    · rw [if_neg hxy]

theorem jsSortEntries_perm (ts : List (List Char × List Char)) :
    (jsSortEntries ts).Perm ts := by
  induction ts with
  | nil => rfl
  | cons x xs ih =>
    rw [jsSortEntries]
    exact (perm_insertByLen x (jsSortEntries xs)).trans (ih.cons x)

theorem pairwise_insertByLen (x : List Char × List Char) :
    ∀ l, List.Pairwise (fun a b => b.1.length ≤ a.1.length) l →
      List.Pairwise (fun a b => b.1.length ≤ a.1.length) (insertByLen x l) := by
  intro l
  induction l with
  | nil => intro _; simp [insertByLen]
  | cons y ys ih =>
    intro h
    rw [List.pairwise_cons] at h
    rw [insertByLen]
    by_cases hxy : x.1.length < y.1.length
    · rw [if_pos hxy]
      refine List.Pairwise.cons ?_ (ih h.2)
      intro z hz
      rcases List.mem_cons.mp ((perm_insertByLen x ys).mem_iff.mp hz) with hz1 | hz2
      · subst hz1; exact Nat.le_of_lt hxy
      · exact h.1 z hz2
    · rw [if_neg hxy]
      refine List.Pairwise.cons ?_ (List.pairwise_cons.mpr h)
      intro z hz
      rcases List.mem_cons.mp hz with hz1 | hz2
      · subst hz1; exact Nat.le_of_not_lt hxy
      · exact Nat.le_trans (h.1 z hz2) (Nat.le_of_not_lt hxy)

theorem jsSortEntries_sorted (ts : List (List Char × List Char)) :
    List.Pairwise (fun a b => b.1.length ≤ a.1.length) (jsSortEntries ts) := by
  induction ts with
  | nil => simp [jsSortEntries]
  | cons x xs ih =>
    rw [jsSortEntries]
    exact pairwise_insertByLen x (jsSortEntries xs) ih

/-- C7: `applyTranslations` runs the substitution loop on the entries sorted
by descending original-key length (a permutation of the dictionary, every
earlier key at least as long as every later one), and each pair's pattern
matches exactly a complete quoted literal: the same quote character (double
or single) on both sides of the original text, which — all regex
metacharacters being escaped — is matched literally. -/
theorem C7_ordering_and_guards :
    (∀ (content : List Char) (ts : List (List Char × List Char)) (mode : Mode),
        applyTranslations content ts mode =
          applyLoop (substStep mode) (jsSortEntries ts) content 0 [] []) ∧
    (∀ ts : List (List Char × List Char),
        (jsSortEntries ts).Perm ts ∧
        List.Pairwise (fun a b => b.1.length ≤ a.1.length) (jsSortEntries ts)) ∧
    (∀ orig s r : List Char, litMatch (escapeRegExp orig) s = some r ↔ s = orig ++ r) ∧
    (∀ (orig rest : List Char) (q : Char) (r' : List Char),
        tryMatch orig rest = some (q, r') ↔
          (q = dquo ∨ q = squo) ∧ rest = q :: (orig ++ q :: r')) := by
  refine ⟨fun _ _ _ => rfl, fun ts => ⟨jsSortEntries_perm ts, jsSortEntries_sorted ts⟩,
    litMatch_escape_iff, fun orig rest q r' => ?_⟩
  rw [tryMatch_iff]
  constructor
  · rintro ⟨hq, h⟩
    refine ⟨?_, h⟩
    rw [isQuoteC] at hq
    rcases Bool.or_eq_true_iff.mp hq with h1 | h1
    · exact Or.inl (by simpa using h1)
    · exact Or.inr (by simpa using h1)
  · rintro ⟨hq, h⟩
    refine ⟨?_, h⟩
    rw [isQuoteC]
    rcases hq with h1 | h1
    · subst h1; simp
    · subst h1; simp

theorem applyLoop_append
    (step : (List Char × List Char) → List Char → Except (List Char) (List Char)) :
    ∀ (l1 l2 : List (List Char × List Char)) (c : List Char) (cnt : Nat)
      (nf errs : List (List Char)),
      applyLoop step (l1 ++ l2) c cnt nf errs =
        applyLoop step l2 (applyLoop step l1 c cnt nf errs).content
          (applyLoop step l1 c cnt nf errs).replacementsCount
          (applyLoop step l1 c cnt nf errs).notFound
          (applyLoop step l1 c cnt nf errs).errors := by
  intro l1
  induction l1 with
  | nil => intro l2 c cnt nf errs; rfl
  | cons p rest ih =>
    intro l2 c cnt nf errs
    rw [List.cons_append, applyLoop, applyLoop]
    cases hstep : step p c with
    | ok c' =>
      dsimp only
      by_cases hc : c' = c
      · rw [if_pos hc, if_pos hc, ih]
      · rw [if_neg hc, if_neg hc, ih]
    | error e => dsimp only; rw [ih]

/-- C8: a pair whose substitution throws contributes exactly its error message
to `errors` and leaves the text unchanged, and the loop then continues with
the remaining pairs from the same state — and in general every pair of the
batch is accounted for as exactly one hit, miss, or error, so a per-pair
failure never aborts the batch. -/
theorem C8_error_isolated
    (step : (List Char × List Char) → List Char → Except (List Char) (List Char))
    (pre suf : List (List Char × List Char)) (p : List Char × List Char)
    (content e : List Char)
    (h : step p (applyLoop step pre content 0 [] []).content = .error e) :
    applyLoop step (pre ++ p :: suf) content 0 [] [] =
      applyLoop step suf (applyLoop step pre content 0 [] []).content
        (applyLoop step pre content 0 [] []).replacementsCount
        (applyLoop step pre content 0 [] []).notFound
        ((applyLoop step pre content 0 [] []).errors ++ [e]) ∧
    (∀ (pairs : List (List Char × List Char)) (c : List Char) (cnt : Nat)
        (nf errs : List (List Char)),
      (applyLoop step pairs c cnt nf errs).replacementsCount +
        (applyLoop step pairs c cnt nf errs).notFound.length +
        (applyLoop step pairs c cnt nf errs).errors.length =
      cnt + nf.length + errs.length + pairs.length) := by
  constructor
  · rw [applyLoop_append step pre (p :: suf) content 0 [] [], applyLoop, h]
  · intro pairs
    induction pairs with
    | nil => intro c cnt nf errs; simp [applyLoop]
    | cons p' rest ih =>
      intro c cnt nf errs
      rw [applyLoop]
      cases hstep : step p' c with
      | ok c' =>
        dsimp only
        by_cases hc : c' = c
        · rw [if_pos hc, ih]
          simp only [List.length_append, List.length_cons, List.length_nil]
          omega
        · rw [if_neg hc, ih]
          simp only [List.length_cons]
          omega
      | error e' =>
        dsimp only
        rw [ih]
        simp only [List.length_append, List.length_cons, List.length_nil]
        omega

/-- A substitution step that throws on the key `BAD` and otherwise performs
the direct-mode substitution. -/
def c8step (p : List Char × List Char) (c : List Char) :
    Except (List Char) (List Char) :=
  if p.1 = strL "BAD" then .error (strL "boom") else substStep .direct p c

/-- Witness for C8: with a step that throws on the middle pair, the loop
records the error and still applies the remaining pair. -/
theorem C8_error_isolated_witness :
    applyLoop c8step
        ([(strL "File", strL "文件")] ++ (strL "BAD", strL "x") :: [(strL "Edit", strL "编辑")])
        (strL "var a = \"File\"; var b = \"Edit\";") 0 [] [] =
      applyLoop c8step [(strL "Edit", strL "编辑")]
        (applyLoop c8step [(strL "File", strL "文件")]
          (strL "var a = \"File\"; var b = \"Edit\";") 0 [] []).content
        (applyLoop c8step [(strL "File", strL "文件")]
          (strL "var a = \"File\"; var b = \"Edit\";") 0 [] []).replacementsCount
        (applyLoop c8step [(strL "File", strL "文件")]
          (strL "var a = \"File\"; var b = \"Edit\";") 0 [] []).notFound
        ((applyLoop c8step [(strL "File", strL "文件")]
          (strL "var a = \"File\"; var b = \"Edit\";") 0 [] []).errors ++ [strL "boom"]) ∧
    applyLoop c8step
        ([(strL "File", strL "文件")] ++ (strL "BAD", strL "x") :: [(strL "Edit", strL "编辑")])
        (strL "var a = \"File\"; var b = \"Edit\";") 0 [] [] =
      ⟨strL "var a = \"文件\"; var b = \"编辑\";", 2, [], [strL "boom"]⟩ :=
  ⟨(C8_error_isolated c8step [(strL "File", strL "文件")] [(strL "Edit", strL "编辑")]
      (strL "BAD", strL "x") (strL "var a = \"File\"; var b = \"Edit\";") (strL "boom")
      (by rfl)).1,
   by rfl⟩

/-- A category covering every common English term (each mapped to `x`). -/
def menuObj : JObj :=
  JObj.ofList (commonEnglishTerms.map (fun t => (t, JVal.str (strL "x"))))

/-- A dictionary whose category `weird` is a JSON array (not an object), with
all common terms covered by the `menu` category. -/
def weirdDict : JVal :=
  .obj (.cons (strL "menu") (.obj menuObj)
    (.cons (strL "weird") (.arr (.cons (.str (strL "a")) .nil)) .nil))

set_option maxRecDepth 400000 in
/-- C9 (counterexample): the category `weird` of this dictionary is a JSON
array — not an object — yet the validator's `typeof` test lets arrays pass,
no issue is recorded, and the report is `isValid = true`. -/
theorem C9_counterexample :
    objGet (jsEntries weirdDict) (strL "weird") =
      some (.arr (.cons (.str (strL "a")) .nil)) ∧
    (validateTranslationData weirdDict).isValid = true ∧
    (validateTranslationData weirdDict).issues = [] := by
  exact ⟨rfl, rfl, rfl⟩

theorem vDupTrack_issues (st : VLoopState) (fk : List Char) :
    (vDupTrack st fk).issues = st.issues := by
  unfold vDupTrack
  split <;> rfl

theorem vValCheck_issues_mono (g k : List Char) (st : VLoopState) (v : JVal) :
    ∃ l, (vValCheck g k st v).issues = st.issues ++ l := by
  cases v with
  | str s =>
    rw [vValCheck]
    by_cases h3 : s.isEmpty = true
    · rw [if_pos h3]; exact ⟨_, rfl⟩
    · rw [if_neg h3]
      by_cases h4 : s.all jsIsSpace = true
      · rw [if_pos h4]; exact ⟨_, rfl⟩
      · rw [if_neg h4]
        dsimp only
        by_cases h5 : 500 < s.length
        · rw [if_pos h5]
          by_cases h6 : (hasSub (strL "\\n") s || hasSub (strL "\\t") s ||
              hasSub (strL "\\r") s) = true
          · rw [if_pos h6]; exact ⟨_, List.append_assoc _ _ _⟩
          · rw [if_neg h6]; exact ⟨_, rfl⟩
        · rw [if_neg h5]
          by_cases h6 : (hasSub (strL "\\n") s || hasSub (strL "\\t") s ||
              hasSub (strL "\\r") s) = true
          · rw [if_pos h6]; exact ⟨_, rfl⟩
          · rw [if_neg h6]; exact ⟨[], (List.append_nil _).symm⟩
  | num n => exact ⟨_, rfl⟩
  | bool b => exact ⟨_, rfl⟩
  | null => exact ⟨_, rfl⟩
  | arr xs => exact ⟨_, rfl⟩
  | obj fields => exact ⟨_, rfl⟩

theorem vEntryStep_issues_mono (g : List Char) (st : VLoopState) (k : List Char) (v : JVal) :
    ∃ l, (vEntryStep g st k v).issues = st.issues ++ l := by
  unfold vEntryStep
  dsimp only
  by_cases h1 : k.all jsIsSpace = true
  · rw [if_pos h1]; exact ⟨_, rfl⟩
  · rw [if_neg h1]
    obtain ⟨l, hl⟩ := vValCheck_issues_mono g k
      (vDupTrack { st with totalEntries := st.totalEntries + 1 } (g ++ '.' :: k)) v
    rw [hl, vDupTrack_issues]
    exact ⟨l, rfl⟩

theorem vEntriesGo_issues_mono (g : List Char) (o : JObj) :
    ∀ st, ∃ l, (vEntriesGo g st o).issues = st.issues ++ l := by
  induction o using JObj.inductionOn with
  | nil => intro st; exact ⟨[], (List.append_nil _).symm⟩
  | cons k v rest ih =>
    intro st
    rw [vEntriesGo]
    obtain ⟨l1, h1⟩ := vEntryStep_issues_mono g st k v
    obtain ⟨l2, h2⟩ := ih (vEntryStep g st k v)
    exact ⟨l1 ++ l2, by rw [h2, h1, List.append_assoc]⟩

theorem vGroupsGo_issues_mono (o : JObj) :
    ∀ st, ∃ l, (vGroupsGo st o).issues = st.issues ++ l := by
  induction o using JObj.inductionOn with
  | nil => intro st; exact ⟨[], (List.append_nil _).symm⟩
  | cons g group rest ih =>
    intro st
    rw [vGroupsGo]
    by_cases hg : isObjNotNull group = true
    · rw [if_pos hg]
      obtain ⟨l1, h1⟩ := vEntriesGo_issues_mono g (jsEntries group) st
      obtain ⟨l2, h2⟩ := ih (vEntriesGo g st (jsEntries group))
      exact ⟨l1 ++ l2, by rw [h2, h1, List.append_assoc]⟩
    · rw [if_neg hg]
      obtain ⟨l2, h2⟩ := ih { st with issues := st.issues ++ [msgBadGroup g] }
      exact ⟨[msgBadGroup g] ++ l2, by rw [h2, List.append_assoc]⟩

theorem vGroupsGo_bad_group (o : JObj) :
    ∀ (st : VLoopState) (c : List Char) (w : JVal),
      objGet o c = some w → isObjNotNull w = false →
      (vGroupsGo st o).issues ≠ [] := by
  induction o using JObj.inductionOn with
  | nil => intro st c w h _; exact absurd h (by simp [objGet])
  | cons g group rest ih =>
    intro st c w h hw
    rw [objGet] at h
    by_cases hg : g = c
    · rw [if_pos hg] at h
      cases h
      rw [vGroupsGo, if_neg (by simp [hw])]
      obtain ⟨l, hl⟩ := vGroupsGo_issues_mono rest { st with issues := st.issues ++ [msgBadGroup g] }
      rw [hl]
      simp
    · rw [if_neg hg] at h
      rw [vGroupsGo]
      by_cases hgood : isObjNotNull group = true
      · rw [if_pos hgood]
        exact ih _ c w h hw
      · rw [if_neg hgood]
        exact ih _ c w h hw

/-- C9 (amended): the validator returns `isValid = false` with at least one
issue on a dictionary with zero categories, and on any dictionary in which
some category value is null or of non-object type other than array (the
implementation's `typeof` test lets arrays pass, see the counterexample);
in every case `isValid` is true exactly when the issues list is empty. -/
theorem C9_validate_invalid :
    ((validateTranslationData (.obj .nil)).isValid = false ∧
      (validateTranslationData (.obj .nil)).issues ≠ []) ∧
    (∀ (translations : JVal) (c : List Char) (w : JVal),
        objGet (jsEntries translations) c = some w → isObjNotNull w = false →
        (validateTranslationData translations).isValid = false ∧
        (validateTranslationData translations).issues ≠ []) ∧
    (∀ v : JVal, (validateTranslationData v).isValid =
        (validateTranslationData v).issues.isEmpty) := by
  refine ⟨⟨by rfl, by decide⟩, ?_, ?_⟩
  · intro translations c w h hw
    by_cases hT : isObjNotNull translations = false
    · rw [validateTranslationData, if_pos hT]
      exact ⟨rfl, by simp⟩
    · rw [validateTranslationData, if_neg hT]
      dsimp only
      have hne : (vGroupsGo ⟨[], 0, 0, 0, 0, 0, [], []⟩ (jsEntries translations)).issues ≠ [] :=
        vGroupsGo_bad_group (jsEntries translations) _ c w h hw
      set st := vGroupsGo ⟨[], 0, 0, 0, 0, 0, [], []⟩ (jsEntries translations) with hst
      have h1 : (if 0 < st.dupKeys.length then st.issues ++ [msgDups st.dupKeys.length]
          else st.issues) ≠ [] := by
        split
        · simp [hne]
        · exact hne
      have h2 : (if st.totalEntries < 10 then
          (if 0 < st.dupKeys.length then st.issues ++ [msgDups st.dupKeys.length]
            else st.issues) ++ [msgTooFew]
          else (if 0 < st.dupKeys.length then st.issues ++ [msgDups st.dupKeys.length]
            else st.issues)) ≠ [] := by
        split
        · simp [h1]
        · exact h1
      constructor
      · cases hcase : (if 0 < (detectUntranslated translations).length then
            (if st.totalEntries < 10 then
              (if 0 < st.dupKeys.length then st.issues ++ [msgDups st.dupKeys.length]
                else st.issues) ++ [msgTooFew]
              else (if 0 < st.dupKeys.length then st.issues ++ [msgDups st.dupKeys.length]
                else st.issues)) ++ [msgUntranslated (detectUntranslated translations).length]
            else (if st.totalEntries < 10 then
              (if 0 < st.dupKeys.length then st.issues ++ [msgDups st.dupKeys.length]
                else st.issues) ++ [msgTooFew]
              else (if 0 < st.dupKeys.length then st.issues ++ [msgDups st.dupKeys.length]
                else st.issues))) with
        | nil =>
          exfalso
          revert hcase
          split
          · intro hc
            exact (by simp [h2] : _ ++ [msgUntranslated (detectUntranslated translations).length] ≠ []) hc
          · intro hc
            exact h2 hc
        | cons a l => simp [hcase]
      · intro hc
        revert hc
        split
        · intro hc
          exact (by simp : _ ++ [msgUntranslated (detectUntranslated translations).length] ≠ []) hc
        · intro hc
          exact h2 hc
  · intro v
    by_cases hT : isObjNotNull v = false
    · rw [validateTranslationData, if_pos hT]
      rfl
    · rw [validateTranslationData, if_neg hT]

/-- Witness for C9 at a concrete dictionary with a numeric category value. -/
theorem C9_validate_invalid_witness :
    (validateTranslationData (.obj (.cons (strL "cat") (.num 1) .nil))).isValid = false ∧
    (validateTranslationData (.obj (.cons (strL "cat") (.num 1) .nil))).issues ≠ [] :=
  C9_validate_invalid.2.1 (.obj (.cons (strL "cat") (.num 1) .nil)) (strL "cat") (.num 1)
    rfl rfl

theorem applySubstGo_no_dollar (q : Char) (pre matched post : List Char) :
    ∀ l, dollar ∉ l →
      applySubstGo q pre matched post .plain (l ++ [dollar, '1']) = l ++ [q] := by
  intro l
  induction l with
  | nil => intro _; rfl
  | cons c l' ih =>
    intro h
    rw [List.mem_cons, not_or] at h
    rw [List.cons_append, applySubstGo, if_neg (fun hc => h.1 hc.symm)]
    rw [ih h.2]
    rfl

/-- C10: the replacement template inserts the translated value unescaped, so
JavaScript dollar sequences in it are interpreted: whenever the translated
value contains no dollar character, a direct-mode match is rewritten to
exactly quote-translated-quote; but for the translated value `$&` the engine
writes the whole quoted match back, so the written inner content is not the
literal translated text. -/
theorem C10_dollar_in_replacement :
    (∀ (original translated : List Char) (q : Char) (pre matched post : List Char),
        dollar ∉ translated →
        applySubst q pre matched post (mkTemplate .direct original translated) =
          q :: (translated ++ [q])) ∧
    (applyTranslations (strL "var a = \"File\";") [(strL "File", strL "$&")] .direct).content =
      strL "var a = \"\"File\"\";" ∧
    (applyTranslations (strL "var a = \"File\";") [(strL "File", strL "$&")] .direct).content ≠
      strL "var a = \"$&\";" := by
  refine ⟨?_, by rfl, by decide⟩
  intro original translated q pre matched post h
  rw [mkTemplate, applySubst]
  show q :: applySubstGo q pre matched post .plain (translated ++ [dollar, '1']) =
    q :: (translated ++ [q])
  rw [applySubstGo_no_dollar q pre matched post translated h]

/-- Witness for C10 with the dollar-free translated value `文件`. -/
theorem C10_dollar_in_replacement_witness :
    applySubst dquo (strL "var a = ") (strL "\"File\"") (strL ";")
        (mkTemplate .direct (strL "File") (strL "文件")) =
      dquo :: (strL "文件" ++ [dquo]) :=
  C10_dollar_in_replacement.1 (strL "File") (strL "文件") dquo (strL "var a = ")
    (strL "\"File\"") (strL ";") (by decide)
